import Mathlib

/-!
Verification of the concurrency core specified for the Agents_Demystified
repository (didactic threading / multiprocessing / asyncio scripts).

Each script is embedded as a small transition system:
* guarded increments under a mutex (`08_thread_lock.py`, `12_process_value.py`)
  as the `LockedRun` machine, where one guarded `counter += 1` is one atomic
  step of the step relation;
* the opposite-order two-lock scenario (`10_deadlock.py`) as the `DState`
  machine with one program counter per task;
* the FIFO hand-off queue (`11_process_queue.py`) as the `Chan` machine;
* `asyncio.gather` (`02_async_two.py`) as a cooperative scheduler over
  `STask` lists;
* the `with lock:` construct as an event-trace function `withLockEvents`;
* daemon / non-daemon shutdown (`07_daemon.py`, `08_non_daemon.py`) as the
  `Worker` lifecycle machine;
* the unguarded read-modify-write race (`09_race_condition.py`) as the
  `RaceState` machine whose increment is split into a read step and a
  write step;
* the pickling round trip through a `multiprocessing.Queue` as a tagged
  encoder / decoder on `PyVal`.
-/

namespace AgentsDemystified

/-! ## Guarded increment machine (08_thread_lock.py, 12_process_value.py)

State of a run of `increment` workers: the shared `counter` and, for each
worker, how many of its guarded `counter += 1` iterations remain.  One step
of the machine is one execution of the critical section `with lock: counter += 1`
(respectively `with counter.get_lock(): counter.value += 1`): the guard makes
the read-modify-write atomic, so it is a single transition. -/

structure LockedRun where
  counter : Nat
  remaining : List Nat
deriving Repr, DecidableEq

/-- Initial state: counter `0` (the scripts initialise `counter = 0` /
`Value('i', 0)`), `n` workers each with `k` iterations left. -/
def lockedInit (n k : Nat) : LockedRun :=
  ⟨0, List.replicate n k⟩

/-- One atomic guarded increment performed by worker `i`: enabled only when
worker `i` still has iterations left; it bumps the shared counter by one and
uses up one iteration. -/
def lockedStep (st : LockedRun) (i : Nat) : Option LockedRun :=
  match st.remaining[i]? with
  | some (v + 1) => some ⟨st.counter + 1, st.remaining.set i v⟩
  | _ => none

/-- Run a whole schedule (an interleaving: the sequence of which worker wins
the lock next). `none` when the schedule is not a valid interleaving. -/
def lockedExec (sched : List Nat) (st : LockedRun) : Option LockedRun :=
  match sched with
  | [] => some st
  | i :: rest =>
    match lockedStep st i with
    | some st2 => lockedExec rest st2
    | none => none

/-- All workers have finished their loops. -/
def lockedDone (st : LockedRun) : Bool :=
  st.remaining.all (· = 0)

theorem sum_set_of_getElem_succ (l : List Nat) (i v : Nat)
    (h : l[i]? = some (v + 1)) : (l.set i v).sum + 1 = l.sum := by
  induction l generalizing i with
  | nil => simp at h
  | cons x xs ih =>
    cases i with
    | zero =>
      simp at h
      subst h
      simp [List.set]
      omega
    | succ j =>
      simp at h
      have := ih j h
      simp [List.set]
      omega

/-- The guard preserves the conservation law: counter plus work still to do
is constant across one atomic guarded increment. -/
theorem lockedStep_invariant (st st2 : LockedRun) (i : Nat)
    (h : lockedStep st i = some st2) :
    st2.counter + st2.remaining.sum = st.counter + st.remaining.sum := by
  unfold lockedStep at h
  cases hget : st.remaining[i]? with
  | none => rw [hget] at h; simp at h
  | some v =>
    rw [hget] at h
    cases v with
    | zero => simp at h
    | succ w =>
      simp at h
      subst h
      have := sum_set_of_getElem_succ st.remaining i w hget
      simp
      omega

theorem lockedExec_invariant (sched : List Nat) (st st2 : LockedRun)
    (h : lockedExec sched st = some st2) :
    st2.counter + st2.remaining.sum = st.counter + st.remaining.sum := by
  induction sched generalizing st with
  | nil => simp [lockedExec] at h; rw [h]
  | cons i rest ih =>
    unfold lockedExec at h
    cases hstep : lockedStep st i with
    | none => rw [hstep] at h; simp at h
    | some stm =>
      rw [hstep] at h
      have h1 := ih stm h
      have h2 := lockedStep_invariant st stm i hstep
      omega

theorem sum_eq_zero_of_all_zero (l : List Nat) (h : l.all (· = 0) = true) :
    l.sum = 0 := by
  induction l with
  | nil => rfl
  | cons x xs ih =>
    simp at h
    simp [h.1, ih (by simp [List.all_eq_true]; exact h.2)]

theorem sum_replicate_nat (n k : Nat) : (List.replicate n k).sum = n * k := by
  induction n with
  | zero => simp
  | succ m ih => simp [List.replicate, ih]; ring

/-- C1: if every increment goes through the mutex guard (i.e. is one atomic
step of the machine), then every complete interleaving of `n` workers doing
`k` increments each ends with `counter = n * k`: no update is lost.  In
particular the 10-thread × 100000 run of `08_thread_lock.py` ends at exactly
1000000 and the 4-process × 100000 run of `12_process_value.py` at exactly
400000. -/
theorem guarded_increments_exact (n k : Nat) (sched : List Nat)
    (st : LockedRun)
    (hexec : lockedExec sched (lockedInit n k) = some st)
    (hdone : lockedDone st = true) :
    st.counter = n * k ∧
      (n = 10 → k = 100000 → st.counter = 1000000) ∧
      (n = 4 → k = 100000 → st.counter = 400000) := by
  have hinv := lockedExec_invariant sched (lockedInit n k) st hexec
  have hz : st.remaining.sum = 0 := sum_eq_zero_of_all_zero _ hdone
  have hrep : (lockedInit n k).remaining.sum = n * k := by
    simp [lockedInit, sum_replicate_nat]
  have hcount : st.counter = n * k := by
    rw [show (lockedInit n k).counter = 0 from rfl,
      show (lockedInit n k).remaining = List.replicate n k from rfl,
      sum_replicate_nat] at hinv
    omega
  refine ⟨hcount, ?_, ?_⟩
  · intro hn hk; subst hn; subst hk; simpa using hcount
  · intro hn hk; subst hn; subst hk; simpa using hcount

/-- Witness for C1: the complete interleaving `[0, 1, 1, 0]` of 2 workers ×
2 increments ends at counter 4 = 2 × 2. -/
theorem guarded_increments_exact_witness :
    (LockedRun.mk 4 [0, 0]).counter = 2 * 2 ∧
      (2 = 10 → 2 = 100000 → (LockedRun.mk 4 [0, 0]).counter = 1000000) ∧
      (2 = 4 → 2 = 100000 → (LockedRun.mk 4 [0, 0]).counter = 400000) :=
  guarded_increments_exact 2 2 [0, 1, 1, 0] (LockedRun.mk 4 [0, 0])
    (by decide) (by decide)

theorem lockedExec_append (p q : List Nat) (st : LockedRun) :
    lockedExec (p ++ q) st = (lockedExec p st).bind (lockedExec q) := by
  induction p generalizing st with
  | nil => simp [lockedExec]
  | cons i rest ih =>
    simp only [List.cons_append, lockedExec]
    cases lockedStep st i with
    | none => simp
    | some st2 => simp [ih st2]

theorem lockedExec_counter (sched : List Nat) (st st2 : LockedRun)
    (h : lockedExec sched st = some st2) :
    st2.counter = st.counter + sched.length := by
  induction sched generalizing st with
  | nil => simp [lockedExec] at h; rw [h]; simp
  | cons i rest ih =>
    unfold lockedExec at h
    cases hstep : lockedStep st i with
    | none => rw [hstep] at h; simp at h
    | some stm =>
      rw [hstep] at h
      have h1 := ih stm h
      have h2 : stm.counter = st.counter + 1 := by
        unfold lockedStep at hstep
        cases hget : st.remaining[i]? with
        | none => rw [hget] at hstep; simp at hstep
        | some v =>
          rw [hget] at hstep
          cases v with
          | zero => simp at hstep
          | succ w => simp at hstep; rw [← hstep]
      simp [h1, h2]
      omega

/-- C9: in the guarded machine each execution of the critical section
`with lock: counter += 1` adds exactly 1, so after any valid interleaving the
counter equals the number of critical-section executions completed so far;
along every prefix of the run the counter equals that prefix's count of
completed critical sections and never exceeds the final value (the counter is
non-decreasing, and only critical-section steps modify it — every transition
of the machine is one guarded critical section). -/
theorem critical_section_counter (n k : Nat) (sched : List Nat)
    (st : LockedRun)
    (hexec : lockedExec sched (lockedInit n k) = some st) :
    st.counter = sched.length ∧
      (∀ s s2 : LockedRun, ∀ i : Nat, lockedStep s i = some s2 →
        s2.counter = s.counter + 1) ∧
      (∀ p q : List Nat, ∀ stp : LockedRun, sched = p ++ q →
        lockedExec p (lockedInit n k) = some stp →
        stp.counter = p.length ∧ stp.counter ≤ st.counter) := by
  have hstep1 : ∀ s s2 : LockedRun, ∀ i : Nat, lockedStep s i = some s2 →
      s2.counter = s.counter + 1 := by
    intro s s2 i hstep
    unfold lockedStep at hstep
    cases hget : s.remaining[i]? with
    | none => rw [hget] at hstep; simp at hstep
    | some v =>
      rw [hget] at hstep
      cases v with
      | zero => simp at hstep
      | succ w => simp at hstep; rw [← hstep]
  have hfin := lockedExec_counter sched (lockedInit n k) st hexec
  have hinit : (lockedInit n k).counter = 0 := rfl
  refine ⟨by omega, hstep1, ?_⟩
  intro p q stp hsplit hp
  have hcp := lockedExec_counter p (lockedInit n k) stp hp
  constructor
  · omega
  · have : sched.length = p.length + q.length := by
      rw [hsplit]; simp
    omega

/-- Witness for C9: the interleaving `[0, 1, 0]` of 2 workers × 2 increments
reaches counter 3 after 3 critical sections. -/
theorem critical_section_counter_witness :
    (LockedRun.mk 3 [0, 1]).counter = [0, 1, 0].length ∧
      (∀ s s2 : LockedRun, ∀ i : Nat, lockedStep s i = some s2 →
        s2.counter = s.counter + 1) ∧
      (∀ p q : List Nat, ∀ stp : LockedRun, [0, 1, 0] = p ++ q →
        lockedExec p (lockedInit 2 2) = some stp →
        stp.counter = p.length ∧ stp.counter ≤ (LockedRun.mk 3 [0, 1]).counter) :=
  critical_section_counter 2 2 [0, 1, 0] (LockedRun.mk 3 [0, 1]) (by decide)

/-! ## 32-bit shared `Value('i', 0)` (12_process_value.py)

`multiprocessing.Value('i', 0)` is a C `signed int`: 32 bits, two's
complement.  The guarded increment machine over that cell therefore wraps the
counter modulo 2^32; the stored bit pattern is read back through the signed
interpretation. -/

/-- Arithmetic of the 32-bit cell: values live modulo 2^32. -/
def wrap32 (v : Nat) : Nat := v % 4294967296

/-- Two's-complement signed reading of a 32-bit bit pattern. -/
def toSigned32 (v : Nat) : Int :=
  if v < 2147483648 then (v : Int) else (v : Int) - 4294967296

/-- Guarded increment machine over the shared 32-bit `Value`. -/
structure LockedRun32 where
  counter : Nat
  remaining : List Nat
deriving Repr, DecidableEq

def lockedInit32 (n k : Nat) : LockedRun32 :=
  ⟨0, List.replicate n k⟩

/-- One guarded `counter.value += 1` on the 32-bit cell: the stored pattern
wraps modulo 2^32. -/
def lockedStep32 (st : LockedRun32) (i : Nat) : Option LockedRun32 :=
  match st.remaining[i]? with
  | some (v + 1) => some ⟨wrap32 (st.counter + 1), st.remaining.set i v⟩
  | _ => none

def lockedExec32 (sched : List Nat) (st : LockedRun32) : Option LockedRun32 :=
  match sched with
  | [] => some st
  | i :: rest =>
    match lockedStep32 st i with
    | some st2 => lockedExec32 rest st2
    | none => none

/-- The 32-bit machine simulates the exact-arithmetic machine: the stored
pattern is always the exact counter reduced modulo 2^32, and both machines
accept exactly the same schedules. -/
theorem lockedExec32_eq_wrap (sched : List Nat) (c : Nat) (rem : List Nat)
    (st32 : LockedRun32)
    (h : lockedExec32 sched ⟨wrap32 c, rem⟩ = some st32) :
    ∃ st : LockedRun, lockedExec sched ⟨c, rem⟩ = some st ∧
      st32.counter = wrap32 st.counter ∧ st32.remaining = st.remaining := by
  induction sched generalizing c rem st32 with
  | nil =>
    simp [lockedExec32] at h
    exact ⟨⟨c, rem⟩, by simp [lockedExec], by rw [← h], by rw [← h]⟩
  | cons i rest ih =>
    unfold lockedExec32 at h
    unfold lockedStep32 at h
    cases hget : rem[i]? with
    | none => rw [hget] at h; simp at h
    | some v =>
      rw [hget] at h
      cases v with
      | zero => simp at h
      | succ w =>
        simp only at h
        have hmod : wrap32 (wrap32 c + 1) = wrap32 (c + 1) := by
          unfold wrap32
          omega
        rw [hmod] at h
        obtain ⟨st, hst, hc, hr⟩ := ih (c + 1) (rem.set i w) st32 h
        refine ⟨st, ?_, hc, hr⟩
        unfold lockedExec lockedStep
        rw [hget]
        simpa using hst

/-- C10: the shared counter of `12_process_value.py` is a signed 32-bit cell
(`Value('i', 0)`), so increments act modulo 2^32; for the program's workload
(guarded increments with `n * k < 2^31`, in particular 4 × 100000 = 400000)
the modular result equals the exact result and its signed reading is exactly
`n * k` — no wraparound occurs. -/
theorem value32_no_wraparound (n k : Nat) (sched : List Nat)
    (st : LockedRun32)
    (hexec : lockedExec32 sched (lockedInit32 n k) = some st)
    (hdone : st.remaining.all (· = 0) = true)
    (hsmall : n * k < 2147483648) :
    st.counter = n * k ∧ toSigned32 st.counter = (n * k : Int) ∧
      (n = 4 → k = 100000 → st.counter = 400000 ∧
        toSigned32 st.counter = 400000) := by
  have h0 : lockedInit32 n k = ⟨wrap32 0, List.replicate n k⟩ := rfl
  rw [h0] at hexec
  obtain ⟨stx, hst, hc, hr⟩ := lockedExec32_eq_wrap sched 0 _ st hexec
  have hdx : lockedDone stx = true := by
    unfold lockedDone
    rw [← hr]
    exact hdone
  have hxc := guarded_increments_exact n k sched stx hst hdx
  have hcount : st.counter = n * k := by
    rw [hc, hxc.1]
    unfold wrap32
    omega
  refine ⟨hcount, ?_, ?_⟩
  · rw [hcount]
    unfold toSigned32
    rw [if_pos hsmall]
    push_cast
    ring
  · intro hn hk
    subst hn; subst hk
    refine ⟨by simpa using hcount, ?_⟩
    rw [hcount]
    decide

/-- Witness for C10: 2 workers × 2 increments on the 32-bit cell end at the
exact value 4, whose signed reading is 4. -/
theorem value32_no_wraparound_witness :
    (LockedRun32.mk 4 [0, 0]).counter = 2 * 2 ∧
      toSigned32 (LockedRun32.mk 4 [0, 0]).counter = (2 * 2 : Int) ∧
      (2 = 4 → 2 = 100000 → (LockedRun32.mk 4 [0, 0]).counter = 400000 ∧
        toSigned32 (LockedRun32.mk 4 [0, 0]).counter = 400000) :=
  value32_no_wraparound 2 2 [0, 0, 1, 1] (LockedRun32.mk 4 [0, 0])
    (by decide) (by decide) (by decide)

/-! ## The `with lock:` construct (scoped lock)

Python compiles `with lock: body` to
`lock.acquire(); try: body finally: lock.release()` (the comment block in
`08_thread_lock.py` spells this out).  We embed one execution of the block as
its event trace: the acquire, the body actions actually executed (possibly a
truncated run when the body raises), and the release appended unconditionally
by the `finally` clause.  The body's outcome — normal value or raised
error — is passed through untouched. -/

inductive WEv (α : Type) where
  | acq : WEv α
  | rel : WEv α
  | act : α → WEv α
deriving Repr, DecidableEq

/-- One execution of `with lock: body`: trace plus propagated outcome.
`bodyEvents` are the body actions that ran before the body returned or
raised; `out` is the body's outcome. -/
def withLockExec (bodyEvents : List α) (out : Except ε β) :
    List (WEv α) × Except ε β :=
  (WEv.acq :: bodyEvents.map WEv.act ++ [WEv.rel], out)

/-- Whether the executing caller holds the mutex after a list of events. -/
def lockHeldAfter (evs : List (WEv α)) (init : Bool) : Bool :=
  evs.foldl (fun s e => match e with
    | .acq => true
    | .rel => false
    | .act _ => s) init

theorem lockHeldAfter_map_act (l : List α) (b : Bool) :
    lockHeldAfter (l.map WEv.act) b = b := by
  induction l with
  | nil => rfl
  | cons x xs ih => simpa [lockHeldAfter] using ih

theorem map_act_append_rel_split (l : List α) (pre post : List (WEv α))
    (a : α) (h : l.map WEv.act ++ [WEv.rel] = pre ++ WEv.act a :: post) :
    ∃ l1 : List α, pre = l1.map WEv.act := by
  induction l generalizing pre with
  | nil =>
    cases pre with
    | nil => simp at h
    | cons p ps => simp at h
  | cons x xs ih =>
    cases pre with
    | nil => exact ⟨[], rfl⟩
    | cons p ps =>
      simp at h
      obtain ⟨l1, hl1⟩ := ih ps h.2
      exact ⟨x :: l1, by simp [hl1, h.1]⟩

/-- C5: in every execution of `with lock: body` — whether the body returns
normally or raises — the mutex is acquired before any body action runs (the
trace starts with the acquire and the lock is held at every body action), the
mutex is released on exit (the lock is no longer held after the full trace),
and the body's outcome, error included, is propagated unchanged past the
release. -/
theorem scoped_lock_releases {α ε β : Type} (bodyEvents : List α)
    (out : Except ε β) :
    (withLockExec bodyEvents out).1.head? = some WEv.acq ∧
      lockHeldAfter (withLockExec bodyEvents out).1 false = false ∧
      (∀ pre post : List (WEv α), ∀ a : α,
        (withLockExec bodyEvents out).1 = pre ++ WEv.act a :: post →
        lockHeldAfter pre false = true) ∧
      (withLockExec bodyEvents out).2 = out := by
  refine ⟨rfl, ?_, ?_, rfl⟩
  · show lockHeldAfter (WEv.acq :: bodyEvents.map WEv.act ++ [WEv.rel]) false = false
    have : lockHeldAfter (WEv.acq :: bodyEvents.map WEv.act ++ [WEv.rel]) false
        = lockHeldAfter ([WEv.rel] : List (WEv α))
            (lockHeldAfter (bodyEvents.map WEv.act) true) := by
      simp [lockHeldAfter, List.foldl_append]
    rw [this, lockHeldAfter_map_act]
    rfl
  · intro pre post a hsplit
    cases pre with
    | nil => simp [withLockExec] at hsplit
    | cons p ps =>
      have hp : p = WEv.acq ∧
          bodyEvents.map WEv.act ++ [WEv.rel] = ps ++ WEv.act a :: post := by
        simp [withLockExec] at hsplit
        exact ⟨hsplit.1.symm, hsplit.2⟩
      obtain ⟨l1, hl1⟩ := map_act_append_rel_split bodyEvents ps post a hp.2
      rw [hp.1, hl1]
      show lockHeldAfter (l1.map WEv.act) true = true
      exact lockHeldAfter_map_act l1 true

/-- Witness for C5: a body that performs two actions and then raises still
leaves the lock released, and the error is propagated. -/
theorem scoped_lock_releases_witness :
    (withLockExec [1, 2] (Except.error "boom" : Except String Nat)).1.head?
        = some WEv.acq ∧
      lockHeldAfter
        (withLockExec [1, 2] (Except.error "boom" : Except String Nat)).1 false
        = false ∧
      (∀ pre post : List (WEv Nat), ∀ a : Nat,
        (withLockExec [1, 2] (Except.error "boom" : Except String Nat)).1
            = pre ++ WEv.act a :: post →
        lockHeldAfter pre false = true) ∧
      (withLockExec [1, 2] (Except.error "boom" : Except String Nat)).2
        = Except.error "boom" :=
  scoped_lock_releases [1, 2] (Except.error "boom")

/-! ## FIFO hand-off channel (11_process_queue.py)

`multiprocessing.Queue` itself is library code, not part of the repository;
the machine below models the spec's BoundedChannel contract: `put` appends to
the tail of the buffer and is logged in `accepted` in global acceptance
order; `get` removes the head of the buffer (blocking on an empty buffer, so
in a completed run every `get` consumed an item) and is logged in
`delivered`. -/

inductive ChanOp (α : Type) where
  | put : α → ChanOp α
  | get : ChanOp α
deriving Repr, DecidableEq

structure Chan (α : Type) where
  buffer : List α
  accepted : List α
  delivered : List α
deriving Repr, DecidableEq

def chanInit {α : Type} : Chan α := ⟨[], [], []⟩

def chanStep (c : Chan α) (op : ChanOp α) : Option (Chan α) :=
  match op with
  | .put x => some ⟨c.buffer ++ [x], c.accepted ++ [x], c.delivered⟩
  | .get =>
    match c.buffer with
    | [] => none
    | x :: rest => some ⟨rest, c.accepted, c.delivered ++ [x]⟩

def chanExec (ops : List (ChanOp α)) (c : Chan α) : Option (Chan α) :=
  match ops with
  | [] => some c
  | op :: rest =>
    match chanStep c op with
    | some c2 => chanExec rest c2
    | none => none

theorem chanStep_inv (c c2 : Chan α) (op : ChanOp α)
    (hinv : c.accepted = c.delivered ++ c.buffer)
    (h : chanStep c op = some c2) :
    c2.accepted = c2.delivered ++ c2.buffer := by
  cases op with
  | put x =>
    simp [chanStep] at h
    rw [← h]
    simp [hinv]
  | get =>
    unfold chanStep at h
    cases hb : c.buffer with
    | nil => rw [hb] at h; simp at h
    | cons x rest =>
      rw [hb] at h
      simp at h
      rw [← h]
      show c.accepted = (c.delivered ++ [x]) ++ rest
      rw [hinv, hb]
      simp

theorem chanExec_inv (ops : List (ChanOp α)) (c c2 : Chan α)
    (hinv : c.accepted = c.delivered ++ c.buffer)
    (h : chanExec ops c = some c2) :
    c2.accepted = c2.delivered ++ c2.buffer := by
  induction ops generalizing c with
  | nil => simp [chanExec] at h; rw [← h]; exact hinv
  | cons op rest ih =>
    unfold chanExec at h
    cases hstep : chanStep c op with
    | none => rw [hstep] at h; simp at h
    | some cm =>
      rw [hstep] at h
      exact ih cm (chanStep_inv c cm op hinv hstep) h

/-- C3: for every sequence of channel operations (the puts interleaved in
any way across any number of producers; `accepted` records the global
acceptance order), the deliveries are exactly a leading segment of the
accepted sequence in acceptance order — global FIFO; once the buffer is
drained the delivered sequence IS the accepted sequence; and no item is
handed to more than one `get`: per value, deliveries plus still-buffered
occurrences exactly account for the accepted occurrences. -/
theorem channel_global_fifo {α : Type} [DecidableEq α]
    (ops : List (ChanOp α)) (c : Chan α)
    (h : chanExec ops chanInit = some c) :
    c.accepted = c.delivered ++ c.buffer ∧
      (c.buffer = [] → c.delivered = c.accepted) ∧
      (∀ x : α, c.delivered.count x + c.buffer.count x = c.accepted.count x) := by
  have hinv := chanExec_inv ops chanInit c (by simp [chanInit]) h
  refine ⟨hinv, ?_, ?_⟩
  · intro hb
    rw [hinv, hb]
    simp
  · intro x
    rw [hinv]
    simp [List.count_append]

/-- Witness for C3: the run `put 1, put 2, get, put 3, get, get` delivers
`[1, 2, 3]`, exactly the acceptance order, each item once. -/
theorem channel_global_fifo_witness :
    (Chan.mk ([] : List Nat) [1, 2, 3] [1, 2, 3]).accepted
        = (Chan.mk ([] : List Nat) [1, 2, 3] [1, 2, 3]).delivered
          ++ (Chan.mk ([] : List Nat) [1, 2, 3] [1, 2, 3]).buffer ∧
      ((Chan.mk ([] : List Nat) [1, 2, 3] [1, 2, 3]).buffer = [] →
        (Chan.mk ([] : List Nat) [1, 2, 3] [1, 2, 3]).delivered
          = (Chan.mk ([] : List Nat) [1, 2, 3] [1, 2, 3]).accepted) ∧
      (∀ x : Nat,
        (Chan.mk ([] : List Nat) [1, 2, 3] [1, 2, 3]).delivered.count x
            + (Chan.mk ([] : List Nat) [1, 2, 3] [1, 2, 3]).buffer.count x
          = (Chan.mk ([] : List Nat) [1, 2, 3] [1, 2, 3]).accepted.count x) :=
  channel_global_fifo
    [ChanOp.put 1, ChanOp.put 2, ChanOp.get, ChanOp.put 3, ChanOp.get,
      ChanOp.get]
    (Chan.mk [] [1, 2, 3] [1, 2, 3]) (by decide)

/-! ## Cooperative scheduler and `await_all` / `asyncio.gather`
(02_async_two.py)

`asyncio.gather` is library code; the machine below models the spec's
CooperativeScheduler: each spawned task is a number of remaining suspension
steps (its awaits before completion) together with its result; the run loop
picks one still-running task per step (the schedule is the order in which
tasks are resumed); the `gather` / `await_all` caller resumes only when
every task has reached DONE, and the aggregated result list is read off the
handle list in input order. -/

structure STask (α : Type) where
  steps : Nat
  res : α
deriving Repr, DecidableEq

/-- Resume task `i` for one step: enabled only while the task still has
suspension steps left (a DONE task is not RUNNING-eligible). -/
def stepAt (ts : List (STask α)) (i : Nat) : Option (List (STask α)) :=
  match ts[i]? with
  | none => none
  | some t =>
    match t.steps with
    | 0 => none
    | s + 1 => some (ts.set i ⟨s, t.res⟩)

def schedExec (sched : List Nat) (ts : List (STask α)) :
    Option (List (STask α)) :=
  match sched with
  | [] => some ts
  | i :: rest =>
    match stepAt ts i with
    | some ts2 => schedExec rest ts2
    | none => none

/-- Every listed task has reached DONE: `await_all` resumes exactly then. -/
def allTasksDone (ts : List (STask α)) : Bool :=
  ts.all (·.steps = 0)

/-- The aggregated result of `await_all` / `gather`: results read off the
handle list in input order. -/
def gatherResult (ts : List (STask α)) : List α :=
  ts.map (·.res)

theorem map_res_set (ts : List (STask α)) (i : Nat) (t t2 : STask α)
    (hget : ts[i]? = some t) (hres : t2.res = t.res) :
    gatherResult (ts.set i t2) = gatherResult ts := by
  induction ts generalizing i with
  | nil => simp at hget
  | cons x xs ih =>
    cases i with
    | zero =>
      simp at hget
      simp [gatherResult, List.set, hres, hget]
    | succ j =>
      simp at hget
      simpa [gatherResult, List.set] using ih j hget

theorem schedExec_preserves_results (sched : List Nat)
    (ts ts2 : List (STask α)) (h : schedExec sched ts = some ts2) :
    gatherResult ts2 = gatherResult ts := by
  induction sched generalizing ts with
  | nil => simp [schedExec] at h; rw [h]
  | cons i rest ih =>
    unfold schedExec at h
    cases hstep : stepAt ts i with
    | none => rw [hstep] at h; simp at h
    | some tsm =>
      rw [hstep] at h
      have h1 := ih tsm h
      unfold stepAt at hstep
      cases hget : ts[i]? with
      | none => rw [hget] at hstep; simp at hstep
      | some t =>
        rw [hget] at hstep
        cases hs : t.steps with
        | zero => simp [hs] at hstep
        | succ s =>
          simp [hs] at hstep
          rw [h1, ← hstep]
          exact map_res_set ts i t ⟨s, t.res⟩ hget rfl

/-- C4: whenever `await_all` resumes (every listed task has reached DONE),
the aggregated result list has the same length as the input handle list and
carries the `i`-th task's result at position `i`, no matter in which order
the schedule completed the tasks; and as long as some task is not DONE the
run is not over — the caller has not resumed. -/
theorem await_all_results_in_input_order {α : Type} (ts0 ts2 : List (STask α))
    (sched : List Nat) (hexec : schedExec sched ts0 = some ts2)
    (hdone : allTasksDone ts2 = true) :
    gatherResult ts2 = gatherResult ts0 ∧
      (gatherResult ts2).length = ts0.length ∧
      (∀ i : Nat, ∀ t0 : STask α, ts0[i]? = some t0 →
        (gatherResult ts2)[i]? = some t0.res) ∧
      (∀ t ∈ ts2, t.steps = 0) ∧
      (∀ p q : List Nat, ∀ tsp : List (STask α), sched = p ++ q →
        schedExec p ts0 = some tsp → allTasksDone tsp = false → q ≠ []) := by
  have hres := schedExec_preserves_results sched ts0 ts2 hexec
  refine ⟨hres, ?_, ?_, ?_, ?_⟩
  · rw [hres]; simp [gatherResult]
  · intro i t0 hget
    rw [hres]
    simp [gatherResult]
    exact ⟨t0, hget, rfl⟩
  · intro t ht
    have := List.all_eq_true.mp hdone t ht
    simpa using this
  · intro p q tsp hsplit hp hnot
    intro hq
    subst hq
    simp at hsplit
    subst hsplit
    rw [hp] at hexec
    simp at hexec
    rw [hexec] at hnot
    rw [hnot] at hdone
    exact Bool.false_ne_true hdone

/-- Witness for C4: two tasks with 1 and 2 pending suspensions, resumed in
the order second, first, second, deliver `[10, 20]` — input order. -/
theorem await_all_results_in_input_order_witness :
    gatherResult [STask.mk 0 10, STask.mk 0 20]
        = gatherResult [STask.mk 1 10, STask.mk 2 20] ∧
      (gatherResult [STask.mk 0 10, STask.mk 0 20]).length
        = [STask.mk 1 10, STask.mk 2 20].length ∧
      (∀ i : Nat, ∀ t0 : STask Nat,
        [STask.mk 1 10, STask.mk 2 20][i]? = some t0 →
        (gatherResult [STask.mk 0 10, STask.mk 0 20])[i]? = some t0.res) ∧
      (∀ t ∈ [STask.mk 0 10, STask.mk 0 20], t.steps = 0) ∧
      (∀ p q : List Nat, ∀ tsp : List (STask Nat), [1, 0, 1] = p ++ q →
        schedExec p [STask.mk 1 10, STask.mk 2 20] = some tsp →
        allTasksDone tsp = false → q ≠ []) :=
  await_all_results_in_input_order [STask.mk 1 10, STask.mk 2 20]
    [STask.mk 0 10, STask.mk 0 20] [1, 0, 1] (by decide) (by decide)

/-! ## Opposite-order two-lock scenario (10_deadlock.py)

`task1` acquires `lock_a` then `lock_b` and releases in reverse order;
`task2` acquires `lock_b` then `lock_a`.  A state records each task's
program counter (0: before first acquire, 1: holding the first lock and
suspended on the second acquire, 2: holding both, 3: first release done,
4: completed) and each lock's holder (`some false` = task 1,
`some true` = task 2, `none` = free).  A blocking acquire is enabled only
when the lock is free. -/

structure DState where
  pc1 : Nat
  pc2 : Nat
  lockA : Option Bool
  lockB : Option Bool
deriving Repr, DecidableEq

def dInit : DState := ⟨0, 0, none, none⟩

/-- Untimed (indefinitely blocking) semantics of the two tasks. -/
inductive DStep : DState → DState → Prop where
  | t1_acqA (s : DState) (h1 : s.pc1 = 0) (h2 : s.lockA = none) :
      DStep s ⟨1, s.pc2, some false, s.lockB⟩
  | t1_acqB (s : DState) (h1 : s.pc1 = 1) (h2 : s.lockB = none) :
      DStep s ⟨2, s.pc2, s.lockA, some false⟩
  | t1_relB (s : DState) (h1 : s.pc1 = 2) (h2 : s.lockB = some false) :
      DStep s ⟨3, s.pc2, s.lockA, none⟩
  | t1_relA (s : DState) (h1 : s.pc1 = 3) (h2 : s.lockA = some false) :
      DStep s ⟨4, s.pc2, none, s.lockB⟩
  | t2_acqB (s : DState) (h1 : s.pc2 = 0) (h2 : s.lockB = none) :
      DStep s ⟨s.pc1, 1, s.lockA, some true⟩
  | t2_acqA (s : DState) (h1 : s.pc2 = 1) (h2 : s.lockA = none) :
      DStep s ⟨s.pc1, 2, some true, s.lockB⟩
  | t2_relA (s : DState) (h1 : s.pc2 = 2) (h2 : s.lockA = some true) :
      DStep s ⟨s.pc1, 3, none, s.lockB⟩
  | t2_relB (s : DState) (h1 : s.pc2 = 3) (h2 : s.lockB = some true) :
      DStep s ⟨s.pc1, 4, s.lockA, none⟩

/-- The circular-wait state: task 1 holds A and waits for B, task 2 holds B
and waits for A. -/
def dDead : DState := ⟨1, 1, some false, some true⟩

theorem dDead_no_successor (s : DState) : ¬ DStep dDead s := by
  intro h
  cases h <;> simp_all [dDead]

theorem dDead_frozen (s : DState)
    (h : Relation.ReflTransGen DStep dDead s) : s = dDead := by
  rcases Relation.ReflTransGen.cases_head h with h0 | ⟨b, hb, _⟩
  · exact h0.symm
  · exact absurd hb (dDead_no_successor b)

/-- Modelled from the spec: the `try_acquire(timeout=1)` variant of the same
scenario is described in the spec's testable properties but has no script in
the repository.  A task suspended on its second acquire may additionally time
out: it fails with `TimeoutError` (program counter 5) and releases the lock
it holds. -/
inductive TStep : DState → DState → Prop where
  | base (s s2 : DState) (h : DStep s s2) : TStep s s2
  | t1_timeoutB (s : DState) (h1 : s.pc1 = 1) (h2 : s.lockB ≠ none)
      (h3 : s.lockA = some false) : TStep s ⟨5, s.pc2, none, s.lockB⟩
  | t2_timeoutA (s : DState) (h1 : s.pc2 = 1) (h2 : s.lockA ≠ none)
      (h3 : s.lockB = some true) : TStep s ⟨s.pc1, 5, s.lockA, none⟩

/-- C2: the circular-wait state (task 1 holding A, task 2 holding B, both at
their second acquire) is reachable from the initial state; in it no task can
take any further step under blocking acquisition, so "both tasks completed"
(`pc1 = 4 ∧ pc2 = 4`) is unreachable from it; while under the
`try_acquire(timeout=1)` semantics a task can fail with `TimeoutError`,
release its held lock, and the other task then runs to completion. -/
theorem deadlock_opposite_order :
    Relation.ReflTransGen DStep dInit dDead ∧
      (∀ s : DState, ¬ DStep dDead s) ∧
      (∀ s : DState, Relation.ReflTransGen DStep dDead s →
        ¬ (s.pc1 = 4 ∧ s.pc2 = 4)) ∧
      (∃ s : DState, Relation.ReflTransGen TStep dDead s ∧
        s.pc1 = 5 ∧ s.lockA = none ∧ s.pc2 = 4 ∧ s.lockB = none) := by
  refine ⟨?_, dDead_no_successor, ?_, ?_⟩
  · have s1 : DStep dInit ⟨1, 0, some false, none⟩ :=
      DStep.t1_acqA dInit rfl rfl
    have s2 : DStep ⟨1, 0, some false, none⟩ dDead :=
      DStep.t2_acqB ⟨1, 0, some false, none⟩ rfl rfl
    exact Relation.ReflTransGen.head s1
      (Relation.ReflTransGen.head s2 Relation.ReflTransGen.refl)
  · intro s hreach hdone
    rw [dDead_frozen s hreach] at hdone
    simp [dDead] at hdone
  · refine ⟨⟨5, 4, none, none⟩, ?_, rfl, rfl, rfl, rfl⟩
    have s1 : TStep dDead ⟨5, 1, none, some true⟩ :=
      TStep.t1_timeoutB dDead rfl (by simp [dDead]) rfl
    have s2 : TStep ⟨5, 1, none, some true⟩ ⟨5, 2, some true, some true⟩ :=
      TStep.base _ _ (DStep.t2_acqA ⟨5, 1, none, some true⟩ rfl rfl)
    have s3 : TStep ⟨5, 2, some true, some true⟩ ⟨5, 3, none, some true⟩ :=
      TStep.base _ _ (DStep.t2_relA ⟨5, 2, some true, some true⟩ rfl rfl)
    have s4 : TStep ⟨5, 3, none, some true⟩ ⟨5, 4, none, none⟩ :=
      TStep.base _ _ (DStep.t2_relB ⟨5, 3, none, some true⟩ rfl rfl)
    exact Relation.ReflTransGen.head s1
      (Relation.ReflTransGen.head s2
        (Relation.ReflTransGen.head s3
          (Relation.ReflTransGen.head s4 Relation.ReflTransGen.refl)))

/-! ## Attached / detached worker lifecycle (07_daemon.py, 08_non_daemon.py)

Modelled from the spec: the joining performed at interpreter shutdown is
CPython runtime behaviour, not code of the repository; the spec's
LifecycleSupervisor contract is: `ATTACHED` (non-daemon, `daemon=False`)
workers must be joined — i.e. must have completed — before the program may
terminate, `DETACHED` (daemon) workers are terminated without joining.  A
worker is its attachment flag plus its remaining operation: `some n` means
`n` steps left, `none` is the unbounded `while True:` monitoring loop of
`monitor_tea_temp`, which never completes however many steps it runs. -/

structure Worker where
  attached : Bool
  remaining : Option Nat
deriving Repr, DecidableEq

/-- One step of a worker's own operation.  An unbounded loop stays
unbounded; a completed worker has no step. -/
def workerStep (w : Worker) : Option Worker :=
  match w.remaining with
  | none => some ⟨w.attached, none⟩
  | some (n + 1) => some ⟨w.attached, some n⟩
  | some 0 => none

inductive LifeEv where
  | work (i : Nat)
  | cancel (i : Nat)
deriving Repr, DecidableEq

def isWorkEv (e : LifeEv) : Bool :=
  match e with
  | .work _ => true
  | .cancel _ => false

def lifeStep (ws : List Worker) (e : LifeEv) : Option (List Worker) :=
  match e with
  | .work i =>
    match ws[i]? with
    | some w =>
      match workerStep w with
      | some w2 => some (ws.set i w2)
      | none => none
    | none => none
  | .cancel i =>
    match ws[i]? with
    | some w => some (ws.set i ⟨w.attached, some 0⟩)
    | none => none

def lifeExec (evs : List LifeEv) (ws : List Worker) : Option (List Worker) :=
  match evs with
  | [] => some ws
  | e :: rest =>
    match lifeStep ws e with
    | some ws2 => lifeExec rest ws2
    | none => none

/-- Shutdown may complete: every ATTACHED worker has run to completion;
DETACHED workers are not joined, whatever their state. -/
def canShutdown (ws : List Worker) : Bool :=
  ws.all (fun w => !w.attached || w.remaining == some 0)

theorem lifeExec_attached_unbounded_fixed (evs : List LifeEv)
    (ws : List Worker) (hwork : evs.all isWorkEv = true)
    (h : lifeExec evs [Worker.mk true none] = some ws) :
    ws = [Worker.mk true none] := by
  induction evs with
  | nil => simp [lifeExec] at h; exact h.symm
  | cons e rest ih =>
    simp [List.all_cons] at hwork
    unfold lifeExec at h
    cases e with
    | cancel i => simp [isWorkEv] at hwork
    | work i =>
      have hstep : lifeStep [Worker.mk true none] (LifeEv.work i)
          = if i = 0 then some [Worker.mk true none] else none := by
        unfold lifeStep
        cases i with
        | zero => simp [workerStep]
        | succ j => simp
      rw [hstep] at h
      by_cases hi : i = 0
      · rw [if_pos hi] at h
        exact ih (by simpa [List.all_eq_true] using hwork.2) h
      · rw [if_neg hi] at h
        simp at h

theorem workerStep_attached (w w2 : Worker) (h : workerStep w = some w2) :
    w2.attached = w.attached := by
  unfold workerStep at h
  cases hr : w.remaining with
  | none => rw [hr] at h; simp at h; rw [← h]
  | some n =>
    rw [hr] at h
    cases n with
    | zero => simp at h
    | succ m => simp at h; rw [← h]

theorem map_attached_set (ws : List Worker) (i : Nat) (w w2 : Worker)
    (hget : ws[i]? = some w) (hatt : w2.attached = w.attached) :
    (ws.set i w2).map (·.attached) = ws.map (·.attached) := by
  induction ws generalizing i with
  | nil => simp at hget
  | cons x xs ih =>
    cases i with
    | zero =>
      simp at hget
      simp [List.set, hatt, hget]
    | succ j =>
      simp at hget
      simpa [List.set] using ih j hget

theorem lifeStep_attached (ws ws2 : List Worker) (e : LifeEv)
    (h : lifeStep ws e = some ws2) :
    ws2.map (·.attached) = ws.map (·.attached) := by
  cases e with
  | work i =>
    simp only [lifeStep] at h
    cases hget : ws[i]? with
    | none => rw [hget] at h; simp at h
    | some w =>
      rw [hget] at h
      simp at h
      cases hws : workerStep w with
      | none => rw [hws] at h; simp at h
      | some w2 =>
        rw [hws] at h
        simp at h
        rw [← h]
        exact map_attached_set ws i w w2 hget (workerStep_attached w w2 hws)
  | cancel i =>
    simp only [lifeStep] at h
    cases hget : ws[i]? with
    | none => rw [hget] at h; simp at h
    | some w =>
      rw [hget] at h
      simp at h
      rw [← h]
      exact map_attached_set ws i w ⟨w.attached, some 0⟩ hget rfl

theorem lifeExec_attached (evs : List LifeEv) (ws ws2 : List Worker)
    (h : lifeExec evs ws = some ws2) :
    ws2.map (·.attached) = ws.map (·.attached) := by
  induction evs generalizing ws with
  | nil => simp [lifeExec] at h; rw [← h]
  | cons e rest ih =>
    unfold lifeExec at h
    cases hstep : lifeStep ws e with
    | none => rw [hstep] at h; simp at h
    | some wsm =>
      rw [hstep] at h
      rw [ih wsm h, lifeStep_attached ws wsm e hstep]

/-- C6: a DETACHED (daemon) worker running the unbounded monitoring loop
never blocks shutdown — after any sequence of lifecycle events the shutdown
step is enabled and the worker is simply not joined; an ATTACHED (non-daemon)
worker running the same loop blocks shutdown after every purely-running
history (its state never reaches completion), and shutdown becomes enabled
once the worker is explicitly cancelled. -/
theorem detached_vs_attached_shutdown :
    (∀ evs : List LifeEv, ∀ ws : List Worker,
      lifeExec evs [Worker.mk false none] = some ws →
      canShutdown ws = true) ∧
      (∀ evs : List LifeEv, ∀ ws : List Worker, evs.all isWorkEv = true →
        lifeExec evs [Worker.mk true none] = some ws →
        canShutdown ws = false) ∧
      lifeExec [LifeEv.cancel 0] [Worker.mk true none]
          = some [Worker.mk true (some 0)] ∧
      canShutdown [Worker.mk true (some 0)] = true := by
  refine ⟨?_, ?_, by decide, by decide⟩
  · intro evs ws h
    have hmap := lifeExec_attached evs [Worker.mk false none] ws h
    unfold canShutdown
    rw [List.all_eq_true]
    intro w hw
    have : w.attached = false := by
      have hfalse : w.attached ∈ ws.map (·.attached) := List.mem_map_of_mem _ hw
      rw [hmap] at hfalse
      simpa using hfalse
    simp [this]
  · intro evs ws hwork h
    rw [lifeExec_attached_unbounded_fixed evs ws hwork h]
    decide

/-- Witness for C6: after two loop iterations the detached monitor still
does not block shutdown, while the attached monitor still does. -/
theorem detached_vs_attached_shutdown_witness :
    canShutdown [Worker.mk false none] = true ∧
      canShutdown [Worker.mk true none] = false :=
  ⟨detached_vs_attached_shutdown.1 [LifeEv.work 0, LifeEv.work 0]
      [Worker.mk false none] (by decide),
    detached_vs_attached_shutdown.2.1 [LifeEv.work 0, LifeEv.work 0]
      [Worker.mk true none] (by decide) (by decide)⟩

/-! ## Unguarded read-modify-write race (09_race_condition.py)

`restock` performs `chai_stock += 1` with no lock: the increment is a READ
of the shared value followed by a WRITE of read-value + 1, and another
thread's steps can interleave between the two.  A worker is its number of
remaining full iterations plus, when it is between its read and its write,
the stale value it read.  The script runs two threads, so the state carries
two workers; the schedule says which thread runs its next micro-step. -/

structure RWorker where
  remaining : Nat
  loaded : Option Nat
deriving Repr, DecidableEq

structure RaceState where
  chai_stock : Nat
  w0 : RWorker
  w1 : RWorker
deriving Repr, DecidableEq

def raceInit (k : Nat) : RaceState :=
  ⟨0, ⟨k, none⟩, ⟨k, none⟩⟩

/-- One micro-step of thread `false` (= thread 0) or `true` (= thread 1):
if it holds no read value and has iterations left, it READS the shared
`chai_stock`; if it holds a read value `v`, it WRITES `v + 1` back,
finishing that iteration — regardless of what the other thread did to
`chai_stock` in between. -/
def raceStep (st : RaceState) (who : Bool) : Option RaceState :=
  match who with
  | false =>
    match st.w0.loaded with
    | some v => some ⟨v + 1, ⟨st.w0.remaining - 1, none⟩, st.w1⟩
    | none =>
      match st.w0.remaining with
      | 0 => none
      | _ + 1 => some ⟨st.chai_stock, ⟨st.w0.remaining, some st.chai_stock⟩, st.w1⟩
  | true =>
    match st.w1.loaded with
    | some v => some ⟨v + 1, st.w0, ⟨st.w1.remaining - 1, none⟩⟩
    | none =>
      match st.w1.remaining with
      | 0 => none
      | _ + 1 => some ⟨st.chai_stock, st.w0, ⟨st.w1.remaining, some st.chai_stock⟩⟩

def raceExec (sched : List Bool) (st : RaceState) : Option RaceState :=
  match sched with
  | [] => some st
  | who :: rest =>
    match raceStep st who with
    | some st2 => raceExec rest st2
    | none => none

/-- Both threads have completed all their iterations. -/
def raceDone (st : RaceState) : Bool :=
  st.w0.remaining == 0 && st.w0.loaded == none &&
    st.w1.remaining == 0 && st.w1.loaded == none

theorem raceExec_append (p q : List Bool) (st : RaceState) :
    raceExec (p ++ q) st = (raceExec p st).bind (raceExec q) := by
  induction p generalizing st with
  | nil => simp [raceExec]
  | cons who rest ih =>
    simp only [List.cons_append, raceExec]
    cases raceStep st who with
    | none => simp
    | some st2 => simp [ih st2]

/-- An uninterrupted solo run of thread 1: `r` full iterations on its own
add exactly `r`. -/
theorem raceExec_solo_w1 (r : Nat) (c : Nat) (w : RWorker) :
    raceExec (List.replicate (2 * r) true) ⟨c, w, ⟨r, none⟩⟩
      = some ⟨c + r, w, ⟨0, none⟩⟩ := by
  induction r generalizing c with
  | zero => simp [raceExec]
  | succ j ih =>
    have hrep : 2 * (j + 1) = (2 * j) + 1 + 1 := by ring
    rw [hrep, List.replicate_succ, List.replicate_succ]
    show raceExec (true :: true :: List.replicate (2 * j) true)
      ⟨c, w, ⟨j + 1, none⟩⟩ = some ⟨c + (j + 1), w, ⟨0, none⟩⟩
    unfold raceExec raceStep
    simp only []
    show raceExec (true :: List.replicate (2 * j) true)
      ⟨c, w, ⟨j + 1, some c⟩⟩ = some ⟨c + (j + 1), w, ⟨0, none⟩⟩
    unfold raceExec raceStep
    simp only []
    show raceExec (List.replicate (2 * j) true)
      ⟨c + 1, w, ⟨j + 1 - 1, none⟩⟩ = some ⟨c + (j + 1), w, ⟨0, none⟩⟩
    have : j + 1 - 1 = j := rfl
    rw [this, ih (c + 1)]
    have : c + 1 + j = c + (j + 1) := by ring
    rw [this]

/-- An uninterrupted solo run of thread 0. -/
theorem raceExec_solo_w0 (r : Nat) (c : Nat) (w : RWorker) :
    raceExec (List.replicate (2 * r) false) ⟨c, ⟨r, none⟩, w⟩
      = some ⟨c + r, ⟨0, none⟩, w⟩ := by
  induction r generalizing c with
  | zero => simp [raceExec]
  | succ j ih =>
    have hrep : 2 * (j + 1) = (2 * j) + 1 + 1 := by ring
    rw [hrep, List.replicate_succ, List.replicate_succ]
    show raceExec (false :: false :: List.replicate (2 * j) false)
      ⟨c, ⟨j + 1, none⟩, w⟩ = some ⟨c + (j + 1), ⟨0, none⟩, w⟩
    unfold raceExec raceStep
    simp only []
    show raceExec (false :: List.replicate (2 * j) false)
      ⟨c, ⟨j + 1, some c⟩, w⟩ = some ⟨c + (j + 1), ⟨0, none⟩, w⟩
    unfold raceExec raceStep
    simp only []
    show raceExec (List.replicate (2 * j) false)
      ⟨c + 1, ⟨j + 1 - 1, none⟩, w⟩ = some ⟨c + (j + 1), ⟨0, none⟩, w⟩
    have : j + 1 - 1 = j := rfl
    rw [this, ih (c + 1)]
    have : c + 1 + j = c + (j + 1) := by ring
    rw [this]

/-- The update-losing interleaving: thread 0 reads 0, thread 1 runs all its
iterations, thread 0 writes back its stale 1, then finishes alone. -/
def lostSched (k : Nat) : List Bool :=
  false :: (List.replicate (2 * k) true
    ++ (false :: List.replicate (2 * (k - 1)) false))

/-- C7: without the mutex guard there is an interleaving of the two
`restock` threads (each doing `k ≥ 1` unguarded `chai_stock += 1`
iterations) that completes both threads with a final value strictly below
`2 * k` — updates are lost; for the script's `k = 100000` the exhibited run
ends below 200000. -/
theorem unguarded_increments_lose_updates (k : Nat) (hk : 1 ≤ k) :
    ∃ sched : List Bool, ∃ st : RaceState,
      raceExec sched (raceInit k) = some st ∧ raceDone st = true ∧
      st.chai_stock < 2 * k ∧ (k = 100000 → st.chai_stock < 200000) := by
  obtain ⟨j, rfl⟩ : ∃ j, k = j + 1 := ⟨k - 1, by omega⟩
  refine ⟨lostSched (j + 1), ⟨j + 1, ⟨0, none⟩, ⟨0, none⟩⟩, ?_, rfl,
    by show j + 1 < 2 * (j + 1); omega,
    by intro hjk; show j + 1 < 200000; omega⟩
  unfold lostSched raceInit
  show raceExec (false :: (List.replicate (2 * (j + 1)) true
      ++ (false :: List.replicate (2 * (j + 1 - 1)) false)))
    ⟨0, ⟨j + 1, none⟩, ⟨j + 1, none⟩⟩
    = some ⟨j + 1, ⟨0, none⟩, ⟨0, none⟩⟩
  unfold raceExec raceStep
  simp only []
  show raceExec (List.replicate (2 * (j + 1)) true
      ++ (false :: List.replicate (2 * (j + 1 - 1)) false))
    ⟨0, ⟨j + 1, some 0⟩, ⟨j + 1, none⟩⟩
    = some ⟨j + 1, ⟨0, none⟩, ⟨0, none⟩⟩
  rw [raceExec_append, raceExec_solo_w1 (j + 1) 0 ⟨j + 1, some 0⟩]
  show raceExec (false :: List.replicate (2 * (j + 1 - 1)) false)
    ⟨0 + (j + 1), ⟨j + 1, some 0⟩, ⟨0, none⟩⟩
    = some ⟨j + 1, ⟨0, none⟩, ⟨0, none⟩⟩
  unfold raceExec raceStep
  simp only []
  show raceExec (List.replicate (2 * (j + 1 - 1)) false)
    ⟨0 + 1, ⟨j + 1 - 1, none⟩, ⟨0, none⟩⟩
    = some ⟨j + 1, ⟨0, none⟩, ⟨0, none⟩⟩
  have h1 : j + 1 - 1 = j := rfl
  rw [h1, raceExec_solo_w0 j 1 ⟨0, none⟩]
  have h2 : 1 + j = j + 1 := by ring
  rw [h2]

/-- Witness for C7: at `k = 2` the exhibited interleaving finishes both
threads with `chai_stock = 2 < 4`. -/
theorem unguarded_increments_lose_updates_witness :
    ∃ sched : List Bool, ∃ st : RaceState,
      raceExec sched (raceInit 2) = some st ∧ raceDone st = true ∧
      st.chai_stock < 2 * 2 ∧ (2 = 100000 → st.chai_stock < 200000) :=
  unguarded_increments_lose_updates 2 (by decide)

/-! ## Cross-process hand-off round trip (11_process_queue.py)

Modelled from the spec: the pickling done inside `multiprocessing.Queue`
is library code, not code of the repository.  The spec's cross-isolation
contract says the channel serializes items transparently, so a `put` in
one process followed by a `get` in the other is
`deserialize(serialize(x))`.  Serializable items are modelled as the
`PyVal` inductive (ints, strings, pairs); `serialize` produces a tagged
flat word stream and `deserialize` parses it back. -/

inductive PyVal where
  | pyint : Int → PyVal
  | pystr : String → PyVal
  | pypair : PyVal → PyVal → PyVal
deriving Repr, DecidableEq

def serialize : PyVal → List Nat
  | .pyint n => 0 :: (if n < 0 then 1 else 0) :: [n.natAbs]
  | .pystr s => 1 :: s.data.length :: s.data.map Char.toNat
  | .pypair a b => 2 :: (serialize a ++ serialize b)

def decodeChars : Nat → List Nat → Option (List Char × List Nat)
  | 0, rest => some ([], rest)
  | _ + 1, [] => none
  | n + 1, c :: rest =>
    (decodeChars n rest).map (fun p => (Char.ofNat c :: p.1, p.2))

/-- Fuel-indexed parser; the fuel only bounds nesting and is in practice
the length of the input stream. -/
def deserializeF : Nat → List Nat → Option (PyVal × List Nat)
  | 0, _ => none
  | _ + 1, 0 :: sgn :: mag :: rest =>
    some (.pyint (if sgn = 1 then -(mag : Int) else (mag : Int)), rest)
  | _ + 1, 1 :: len :: rest =>
    (decodeChars len rest).map (fun p => (.pystr (String.mk p.1), p.2))
  | f + 1, 2 :: rest =>
    match deserializeF f rest with
    | some (a, rest2) =>
      match deserializeF f rest2 with
      | some (b, rest3) => some (.pypair a b, rest3)
      | none => none
    | none => none
  | _ + 1, _ => none

def deserialize (l : List Nat) : Option (PyVal × List Nat) :=
  deserializeF l.length l

theorem decodeChars_roundtrip (cs : List Char) (rest : List Nat) :
    decodeChars cs.length (cs.map Char.toNat ++ rest) = some (cs, rest) := by
  induction cs with
  | nil => rfl
  | cons c cs2 ih =>
    show (decodeChars cs2.length (cs2.map Char.toNat ++ rest)).map
      (fun p => (Char.ofNat c.toNat :: p.1, p.2)) = some (c :: cs2, rest)
    rw [ih]
    simp [Char.ofNat_toNat]

theorem deserializeF_roundtrip (v : PyVal) :
    ∀ fuel : Nat, ∀ rest : List Nat,
      (serialize v ++ rest).length ≤ fuel →
      deserializeF fuel (serialize v ++ rest) = some (v, rest) := by
  induction v with
  | pyint n =>
    intro fuel rest hlen
    cases fuel with
    | zero => simp [serialize] at hlen
    | succ f =>
      show deserializeF (f + 1)
        (0 :: (if n < 0 then 1 else 0) :: n.natAbs :: rest) = some (.pyint n, rest)
      by_cases hn : n < 0
      · rw [if_pos hn]
        unfold deserializeF
        have hval : (if (1 : Nat) = 1 then -(n.natAbs : Int)
            else (n.natAbs : Int)) = n := by
          rw [if_pos rfl]
          omega
        rw [hval]
      · rw [if_neg hn]
        unfold deserializeF
        have hval : (if (0 : Nat) = 1 then -(n.natAbs : Int)
            else (n.natAbs : Int)) = n := by
          rw [if_neg (by decide)]
          omega
        rw [hval]
  | pystr s =>
    intro fuel rest hlen
    cases fuel with
    | zero => simp [serialize] at hlen
    | succ f =>
      show deserializeF (f + 1)
        (1 :: s.data.length :: (s.data.map Char.toNat ++ rest))
        = some (.pystr s, rest)
      unfold deserializeF
      rw [decodeChars_roundtrip s.data rest]
      rfl
  | pypair a b iha ihb =>
    intro fuel rest hlen
    cases fuel with
    | zero => simp [serialize] at hlen
    | succ f =>
      have hshape : serialize (PyVal.pypair a b) ++ rest
          = 2 :: (serialize a ++ (serialize b ++ rest)) := by
        simp [serialize]
      rw [hshape]
      rw [hshape] at hlen
      unfold deserializeF
      have hla : (serialize a ++ (serialize b ++ rest)).length ≤ f := by
        simp at hlen ⊢
        omega
      rw [iha f (serialize b ++ rest) hla]
      have hlb : (serialize b ++ rest).length ≤ f := by
        simp at hla ⊢
        omega
      show (match deserializeF f (serialize b ++ rest) with
        | some (b2, rest3) => some (PyVal.pypair a b2, rest3)
        | none => none) = some (PyVal.pypair a b, rest)
      rw [ihb f rest hlb]

/-- A `put` in the child process followed by the `get` in the main process:
the item crosses the isolation boundary as `deserialize(serialize(x))`. -/
def sendThroughQueue (v : PyVal) : Option PyVal :=
  (deserialize (serialize v)).map Prod.fst

/-- C8: cross-process hand-off is a round-trip identity — for every
serializable item, serializing it on the producer side and deserializing it
on the consumer side yields the item back unchanged; in particular the exact
string `prepare_chai` puts into the queue is what the main process gets. -/
theorem queue_roundtrip_identity :
    (∀ v : PyVal, sendThroughQueue v = some v) ∧
      sendThroughQueue (PyVal.pystr "☕ Masala chai is ready!")
        = some (PyVal.pystr "☕ Masala chai is ready!") := by
  have hgen : ∀ v : PyVal, sendThroughQueue v = some v := by
    intro v
    unfold sendThroughQueue deserialize
    have h := deserializeF_roundtrip v (serialize v).length []
      (by simp)
    rw [show serialize v ++ [] = serialize v by simp] at h
    rw [h]
    rfl
  exact ⟨hgen, hgen _⟩

end AgentsDemystified
